import Mathlib

/-!
Verification of the procedural audio generator (`scripts/generate_theme_audio.py`).

The script synthesizes every game sound from oscillator / noise / envelope
primitives at a fixed 44100 Hz sample rate.  We embed the relevant functions
shallowly: sample buffers are `List ℝ` (or `List ℚ` where only field
arithmetic occurs), Python's `int()` truncation is modelled exactly, the
process-wide `random.uniform(-1, 1)` stream is an explicitly passed draw
function `ℕ → ℝ`, and a Python function that can raise (`max` of an empty
sequence) returns an `Option`.
-/

namespace ThemeAudio

/-- The fixed sample rate, `SAMPLE_RATE = 44_100`. -/
def SAMPLE_RATE : ℕ := 44100

/-- Python `int()` applied to a rational: truncation toward zero. -/
def pyInt (x : ℚ) : ℤ := if 0 ≤ x then ⌊x⌋ else ⌈x⌉

/-- `max(abs(s) for s in samples)` for a non-empty list; `0` on `[]`
(Python raises there, which `normalize` turns into `none`). -/
def maxAbs (samples : List ℚ) : ℚ := samples.foldr (fun s acc => max |s| acc) 0

/-- `_normalize(samples, peak)`:
`max_amp = max(abs(s) for s in samples) or 1.0; scale = peak / max_amp;
return [s * scale for s in samples]`.
`max` of the empty list raises `ValueError`, modelled as `none`;
`or 1.0` replaces a zero maximum by `1.0`. -/
def normalize (samples : List ℚ) (peak : ℚ) : Option (List ℚ) :=
  match samples with
  | [] => none
  | _ =>
    let maxAmp := if maxAbs samples = 0 then 1 else maxAbs samples
    let scale := peak / maxAmp
    some (samples.map (fun s => s * scale))

/-! ### Basic facts about `maxAbs` -/

theorem maxAbs_nonneg (l : List ℚ) : 0 ≤ maxAbs l := by
  induction l with
  | nil => simp [maxAbs]
  | cons x xs ih =>
    simp only [maxAbs, List.foldr_cons] at *
    exact le_trans ih (le_max_right _ _)

theorem abs_le_maxAbs (l : List ℚ) (s : ℚ) (hs : s ∈ l) : |s| ≤ maxAbs l := by
  induction l with
  | nil => simp at hs
  | cons x xs ih =>
    simp only [maxAbs, List.foldr_cons]
    rcases List.mem_cons.mp hs with h | h
    · subst h; exact le_max_left _ _
    · exact le_trans (ih h) (le_max_right _ _)

theorem maxAbs_map_mul (l : List ℚ) (c : ℚ) :
    maxAbs (l.map (fun s => s * c)) = maxAbs l * |c| := by
  induction l with
  | nil => simp [maxAbs]
  | cons x xs ih =>
    simp only [maxAbs, List.map_cons, List.foldr_cons] at *
    rw [ih, abs_mul, max_mul_of_nonneg _ _ (abs_nonneg c)]

theorem maxAbs_pos_of_nonzero (l : List ℚ) (s : ℚ) (hs : s ∈ l) (hne : s ≠ 0) :
    0 < maxAbs l :=
  lt_of_lt_of_le (abs_pos.mpr hne) (abs_le_maxAbs l s hs)

/-! ### C1: behaviour of `_normalize` -/

/-- C1 (amended): for every non-empty buffer and every **nonnegative** peak,
`_normalize` returns a buffer of the same length; if some sample is non-zero
the maximum absolute output sample equals `peak`; if every sample is zero the
buffer is returned unchanged. -/
theorem normalize_spec (samples : List ℚ) (peak : ℚ)
    (hne : samples ≠ []) (hpk : 0 ≤ peak) :
    ∃ out, normalize samples peak = some out ∧
      out.length = samples.length ∧
      ((∃ s ∈ samples, s ≠ 0) → maxAbs out = peak) ∧
      ((∀ s ∈ samples, s = 0) → out = samples) := by
  match samples with
  | [] => exact absurd rfl hne
  | x :: xs =>
    refine ⟨(x :: xs).map (fun s => s * (peak / (if maxAbs (x :: xs) = 0 then 1 else maxAbs (x :: xs)))), rfl, by simp, ?_, ?_⟩
    · rintro ⟨s, hs, hsne⟩
      have hpos : 0 < maxAbs (x :: xs) := maxAbs_pos_of_nonzero _ s hs hsne
      have hzero : ¬ (maxAbs (x :: xs) = 0) := ne_of_gt hpos
      rw [if_neg hzero, maxAbs_map_mul, abs_div, abs_of_nonneg hpk,
        abs_of_pos hpos]
      field_simp
    · intro hall
      have : ∀ s ∈ (x :: xs), s * (peak / (if maxAbs (x :: xs) = 0 then 1 else maxAbs (x :: xs))) = s := by
        intro s hs
        rw [hall s hs, zero_mul]
      calc (x :: xs).map (fun s => s * (peak / (if maxAbs (x :: xs) = 0 then 1 else maxAbs (x :: xs))))
          = (x :: xs).map id := List.map_congr_left this
        _ = x :: xs := List.map_id _

/-- C1 witness: `normalize [2, 0] 3` satisfies the amended specification. -/
theorem normalize_spec_witness :
    ([(2 : ℚ), 0] ≠ []) ∧ ((0 : ℚ) ≤ 3) ∧
      (∃ out, normalize [(2 : ℚ), 0] 3 = some out ∧
        out.length = ([(2 : ℚ), 0]).length ∧
        ((∃ s ∈ [(2 : ℚ), 0], s ≠ 0) → maxAbs out = 3) ∧
        ((∀ s ∈ [(2 : ℚ), 0], s = 0) → out = [(2 : ℚ), 0])) :=
  ⟨by decide, by decide, normalize_spec [(2 : ℚ), 0] 3 (by decide) (by decide)⟩

/-- C1 counterexample: with the negative target peak `-1` and buffer `[1]`,
the output is `[-1]`, whose maximum absolute sample is `1 ≠ -1`:
the claim fails for negative peaks. -/
theorem normalize_neg_peak_counterexample :
    normalize [(1 : ℚ)] (-1) = some [-1] ∧ maxAbs [(-1 : ℚ)] = 1 ∧ (1 : ℚ) ≠ -1 := by
  refine ⟨?_, by decide, by decide⟩
  norm_num [normalize, maxAbs]

/-! ### C10: `_normalize` on the empty buffer -/

/-- C10: applying `_normalize` to the empty buffer raises
(`max()` of an empty sequence), modelled by `none`: normalization is defined
only for non-empty input. -/
theorem normalize_empty (peak : ℚ) : normalize [] peak = none := rfl

/-! ### C4: the cue registry `SOUNDS` -/

/-- The keys of the `SOUNDS` registry dictionary, in source order. -/
def SOUNDS_keys : List String :=
  [ "space-bgm.mp3", "space-fire.mp3", "space-break-small.mp3",
    "space-break-medium.mp3", "space-break-large.mp3", "space-levelup.mp3",
    "space-gameover.mp3", "space-player_hit.mp3", "space-powerup_collect.mp3",
    "space-ui_click.mp3",
    "medieval-bgm.mp3", "medieval-fire.mp3", "medieval-break-wyvern.mp3",
    "medieval-break-bat.mp3", "medieval-break-crystal.mp3",
    "medieval-levelup.mp3", "medieval-gameover.mp3", "medieval-player_hit.mp3",
    "medieval-powerup_collect.mp3", "medieval-ui_click.mp3",
    "underwater-bgm.mp3", "underwater-fire.mp3", "underwater-break-small.mp3",
    "underwater-break-medium.mp3", "underwater-break-large.mp3",
    "underwater-levelup.mp3", "underwater-gameover.mp3",
    "underwater-player_hit.mp3", "underwater-powerup_collect.mp3",
    "underwater-ui_click.mp3",
    "test-sound.mp3" ]

/-- The documented `(theme, cue[, variant])` identifier set, formatted
`{theme}-{cue}[-{variant}].mp3`: themes space/medieval/underwater, cue kinds
fire, break, levelup, gameover, player_hit, powerup_collect, ui_click, bgm,
break variants small/medium/large for space and underwater,
wyvern/bat/crystal for medieval. -/
def documentedIds : List String :=
  [ "space-fire.mp3", "space-break-small.mp3", "space-break-medium.mp3",
    "space-break-large.mp3", "space-levelup.mp3", "space-gameover.mp3",
    "space-player_hit.mp3", "space-powerup_collect.mp3", "space-ui_click.mp3",
    "space-bgm.mp3",
    "medieval-fire.mp3", "medieval-break-wyvern.mp3", "medieval-break-bat.mp3",
    "medieval-break-crystal.mp3", "medieval-levelup.mp3",
    "medieval-gameover.mp3", "medieval-player_hit.mp3",
    "medieval-powerup_collect.mp3", "medieval-ui_click.mp3", "medieval-bgm.mp3",
    "underwater-fire.mp3", "underwater-break-small.mp3",
    "underwater-break-medium.mp3", "underwater-break-large.mp3",
    "underwater-levelup.mp3", "underwater-gameover.mp3",
    "underwater-player_hit.mp3", "underwater-powerup_collect.mp3",
    "underwater-ui_click.mp3", "underwater-bgm.mp3" ]

/-- C4 counterexample: the registry contains the key `"test-sound.mp3"`,
which lies outside the documented identifier set, so the key set is not
exactly the documented set. -/
theorem sounds_extra_key_counterexample :
    "test-sound.mp3" ∈ SOUNDS_keys ∧ "test-sound.mp3" ∉ documentedIds := by
  constructor
  · decide
  · decide

/-- C4 (amended): the registry's key set has no duplicates and is exactly
the documented identifier set together with the single extra wiring-test key
`"test-sound.mp3"`; in particular every documented identifier is present and
no documented identifier is duplicated. -/
theorem sounds_keys_spec :
    SOUNDS_keys.Nodup ∧ documentedIds.Nodup ∧
      (∀ k ∈ documentedIds, k ∈ SOUNDS_keys) ∧
      (∀ k ∈ SOUNDS_keys, k ∈ documentedIds ∨ k = "test-sound.mp3") := by
  refine ⟨by decide, by decide, by decide, by decide⟩

/-! ### Real-valued synthesis primitives -/

/-- `PI2 = math.tau = 2π`. -/
noncomputable def PI2 : ℝ := 2 * Real.pi

/-- The `wave(phi)` closure inside `_sweep`: square / triangle / saw are
selected by string tag, any other tag falls through to `math.sin(phi)`.
Python's `x % 1` on floats (positive modulus) is `Int.fract`. -/
noncomputable def waveFn (shape : String) (phi : ℝ) : ℝ :=
  if shape = "square" then (if 0 ≤ Real.sin phi then 1 else -1)
  else if shape = "triangle" then 2 * |2 * Int.fract (phi / PI2) - 1| - 1
  else if shape = "saw" then 2 * Int.fract (phi / PI2) - 1
  else Real.sin phi

/-- Frequency at sample `k` in `_sweep`: linear interpolation in sample
position fraction `t = k / total`. -/
noncomputable def sweepFreq (total : ℕ) (f0 f1 : ℝ) (k : ℕ) : ℝ :=
  f0 + (f1 - f0) * ((k : ℝ) / (total : ℝ))

/-- Accumulated phase at sample `i` of `_sweep`: the loop does
`phase += PI2 * freq / SAMPLE_RATE` starting from `0.0`, so sample `i`
sees the sum over `k = 0..i`. -/
noncomputable def sweepPhase (total : ℕ) (f0 f1 : ℝ) (i : ℕ) : ℝ :=
  ∑ k ∈ Finset.range (i + 1), PI2 * sweepFreq total f0 f1 k / (SAMPLE_RATE : ℝ)

/-- `_sweep(duration, start_freq, end_freq, shape)`:
`total = int(duration * SAMPLE_RATE)` samples of `wave(phase)`. -/
noncomputable def sweep (duration : ℚ) (f0 f1 : ℝ) (shape : String) : List ℝ :=
  let total := (pyInt (duration * (SAMPLE_RATE : ℚ))).toNat
  (List.range total).map (fun i => waveFn shape (sweepPhase total f0 f1 i))

/-- `attack_n = max(1, int(attack * SAMPLE_RATE))` of `_env_percussive`. -/
def attackSamples (attack : ℚ) : ℕ :=
  (max 1 (pyInt (attack * (SAMPLE_RATE : ℚ)))).toNat

/-- Sample `i` of `_env_percussive`: linear ramp `i / attack_n` before the
attack boundary, `exp(-(i - attack_n) / (SAMPLE_RATE * decay))` after. -/
noncomputable def envPercussiveAt (attackN : ℕ) (decay : ℚ) (i : ℕ) : ℝ :=
  if i < attackN then (i : ℝ) / (attackN : ℝ)
  else Real.exp (-(((i : ℝ) - (attackN : ℝ)) / ((SAMPLE_RATE : ℝ) * (decay : ℝ))))

/-- `_env_percussive(length, attack, decay)`. -/
noncomputable def envPercussive (length : ℕ) (attack decay : ℚ) : List ℝ :=
  (List.range length).map (envPercussiveAt (attackSamples attack) decay)

/-- One run of the `_noise` loop: `len` draws remaining, `i` the index of the
next draw in the shared uniform(-1,1) stream, `last` the one-pole filter
state (initially `0.0`; left untouched on the white/default branch). -/
noncomputable def noiseAux (color : String) (draws : ℕ → ℝ) :
    ℕ → ℕ → ℝ → List ℝ
  | 0, _, _ => []
  | len + 1, i, last =>
    if color = "brown" then
      (0.02 * draws i + 0.98 * last) ::
        noiseAux color draws len (i + 1) (0.02 * draws i + 0.98 * last)
    else if color = "pink" then
      (0.1 * draws i + 0.9 * last) ::
        noiseAux color draws len (i + 1) (0.1 * draws i + 0.9 * last)
    else
      draws i :: noiseAux color draws len (i + 1) last

/-- `_noise(length, color)`, the shared randomness source passed explicitly
as the draw stream `draws`. -/
noncomputable def noiseList (length : ℕ) (color : String) (draws : ℕ → ℝ) :
    List ℝ :=
  noiseAux color draws length 0 0

/-- `_apply(env, signal, gain)`: elementwise product; `zip` truncates to the
shorter operand. -/
noncomputable def applyEnv (env signal : List ℝ) (gain : ℝ) : List ℝ :=
  List.zipWith (fun e s => e * s * gain) env signal

/-- `_mix` of two layers: elementwise sum over `zip`, truncating to the
shortest layer. -/
noncomputable def mix2 (a b : List ℝ) : List ℝ := List.zipWith (· + ·) a b

/-- `_render(duration, fn)`: `int(duration * SAMPLE_RATE)` samples of
`fn(i / SAMPLE_RATE, i)`. -/
noncomputable def render (duration : ℚ) (f : ℝ → ℕ → ℝ) : List ℝ :=
  (List.range (pyInt (duration * (SAMPLE_RATE : ℚ))).toNat).map
    (fun (i : ℕ) => f ((i : ℝ) / (SAMPLE_RATE : ℝ)) i)

/-! ### C2: unrecognized shape / color tags -/

theorem waveFn_default (shape : String) (h1 : shape ≠ "square")
    (h2 : shape ≠ "triangle") (h3 : shape ≠ "saw") (phi : ℝ) :
    waveFn shape phi = Real.sin phi := by
  unfold waveFn
  rw [if_neg h1, if_neg h2, if_neg h3]

theorem noiseAux_default (color : String) (hb : color ≠ "brown")
    (hp : color ≠ "pink") (draws : ℕ → ℝ) :
    ∀ (len i : ℕ) (last : ℝ),
      noiseAux color draws len i last =
        (List.range len).map (fun k => draws (i + k)) := by
  intro len
  induction len with
  | zero => intro i last; simp [noiseAux]
  | succ n ih =>
    intro i last
    rw [noiseAux, if_neg hb, if_neg hp, ih (i + 1) last,
      List.range_succ_eq_map, List.map_cons, List.map_map]
    refine congrArg₂ _ (by rw [Nat.add_zero]) ?_
    apply List.map_congr_left
    intro k _
    simp only [Function.comp_apply]
    congr 1
    omega

/-- C2 (amended): an unrecognized waveform-shape tag does not fail at
construction: the swept oscillator silently falls through to the sine
waveform; an unrecognized noise-color tag silently yields the unfiltered
(white) draws.  (The code recognizes the tag `"saw"`, not `"sawtooth"`.) -/
theorem unknown_tags_silently_default :
    (∀ shape phi, shape ≠ "square" → shape ≠ "triangle" → shape ≠ "saw" →
      waveFn shape phi = Real.sin phi) ∧
    (∀ color length draws, color ≠ "brown" → color ≠ "pink" →
      noiseList length color draws = (List.range length).map draws) := by
  constructor
  · intro shape phi h1 h2 h3
    exact waveFn_default shape h1 h2 h3 phi
  · intro color length draws hb hp
    rw [noiseList, noiseAux_default color hb hp]
    simp

/-- C2 witness: the tag `"pulse"` (outside the recognized set) renders as
sine, and color `"blue"` yields the raw draws. -/
theorem unknown_tags_silently_default_witness :
    waveFn "pulse" 1 = Real.sin 1 ∧
      noiseList 1 "blue" (fun _ => 0) = (List.range 1).map (fun _ => (0 : ℝ)) :=
  ⟨unknown_tags_silently_default.1 "pulse" 1 (by decide) (by decide) (by decide),
   unknown_tags_silently_default.2 "blue" 1 (fun _ => 0) (by decide) (by decide)⟩

/-- C2 counterexample: passing the shape tag `"pulse"` (outside
{sine, square, triangle, sawtooth}) does not fail — the oscillator waveform
is exactly the sine default — and passing noise color `"blue"` (outside
{white, pink, brown}) returns the raw (white) draws instead of failing. -/
theorem unknown_tags_counterexample :
    waveFn "pulse" 2 = Real.sin 2 ∧
      noiseList 2 "blue" (fun i => (i : ℝ)) = [0, 1] := by
  constructor
  · exact waveFn_default "pulse" (by decide) (by decide) (by decide) 2
  · rw [noiseList, noiseAux_default "blue" (by decide) (by decide)]
    simp [List.range_succ]

/-! ### C3: zero or negative duration -/

theorem sweep_total_zero (duration : ℚ) (hd : duration ≤ 0) :
    (pyInt (duration * (SAMPLE_RATE : ℚ))).toNat = 0 := by
  have hx : duration * (SAMPLE_RATE : ℚ) ≤ 0 :=
    mul_nonpos_of_nonpos_of_nonneg hd (by norm_num [SAMPLE_RATE])
  have : pyInt (duration * (SAMPLE_RATE : ℚ)) ≤ 0 := by
    unfold pyInt
    split_ifs with h
    · have : duration * (SAMPLE_RATE : ℚ) = 0 := le_antisymm hx h
      rw [this]
      simp
    · exact Int.ceil_le.mpr (by exact_mod_cast hx)
  omega

/-- C3 (amended): a zero or negative duration is not rejected with an error:
both `_sweep` and `_render` silently return the empty buffer, because
`int(duration * SAMPLE_RATE) ≤ 0` empties the sample loop. -/
theorem nonpositive_duration_silently_empty (duration : ℚ) (hd : duration ≤ 0) :
    (∀ f0 f1 shape, sweep duration f0 f1 shape = []) ∧
    (∀ f, render duration f = []) := by
  constructor
  · intro f0 f1 shape
    rw [sweep, sweep_total_zero duration hd]
    simp
  · intro f
    rw [render, sweep_total_zero duration hd]
    simp

/-- C3 witness: duration `-1` produces the empty buffer in both generators. -/
theorem nonpositive_duration_silently_empty_witness :
    sweep (-1) 1 2 "sine" = [] ∧ render (-1) (fun _ _ => 3) = [] :=
  ⟨(nonpositive_duration_silently_empty (-1) (by norm_num)).1 1 2 "sine",
   (nonpositive_duration_silently_empty (-1) (by norm_num)).2 (fun _ _ => 3)⟩

/-- C3 counterexample: at duration `0` the swept oscillator and the generic
renderer both return the empty buffer with no error raised, contradicting
"rejected explicitly with an error". -/
theorem zero_duration_counterexample :
    sweep 0 100 200 "sine" = [] ∧ render 0 (fun _ _ => 1) = [] := by
  constructor
  · rw [sweep, sweep_total_zero 0 le_rfl]
    simp
  · rw [render, sweep_total_zero 0 le_rfl]
    simp

/-! ### C6: the swept oscillator is bounded to [-1, 1] -/

theorem waveFn_bounded (shape : String) (phi : ℝ) :
    -1 ≤ waveFn shape phi ∧ waveFn shape phi ≤ 1 := by
  unfold waveFn
  have hf0 : 0 ≤ Int.fract (phi / PI2) := Int.fract_nonneg _
  have hf1 : Int.fract (phi / PI2) < 1 := Int.fract_lt_one _
  have habs : |2 * Int.fract (phi / PI2) - 1| ≤ 1 :=
    abs_le.mpr ⟨by linarith, by linarith⟩
  have habs0 : 0 ≤ |2 * Int.fract (phi / PI2) - 1| := abs_nonneg _
  split_ifs with h1 h2 h3 h4
  · exact ⟨by norm_num, le_refl 1⟩
  · exact ⟨le_refl (-1), by norm_num⟩
  · exact ⟨by linarith, by linarith⟩
  · exact ⟨by linarith, by linarith⟩
  · exact ⟨Real.neg_one_le_sin phi, Real.sin_le_one phi⟩

/-- C6: for every positive duration, every start and end frequency and every
shape tag (in particular the four waveform shapes the oscillator produces),
every sample of `_sweep` lies in the closed interval [-1, 1]. -/
theorem sweep_bounded (duration : ℚ) (f0 f1 : ℝ) (shape : String)
    (_hd : 0 < duration) :
    ∀ x ∈ sweep duration f0 f1 shape, -1 ≤ x ∧ x ≤ 1 := by
  intro x hx
  rw [sweep] at hx
  simp only [List.mem_map] at hx
  obtain ⟨i, _, rfl⟩ := hx
  exact waveFn_bounded shape _

/-- C6 witness: a one-sample square sweep of positive duration is bounded. -/
theorem sweep_bounded_witness :
    (0 : ℚ) < 1 / 44100 ∧
      ∀ x ∈ sweep (1 / 44100) 440 880 "square", -1 ≤ x ∧ x ≤ 1 :=
  ⟨by norm_num, sweep_bounded (1 / 44100) 440 880 "square" (by norm_num)⟩

/-! ### C7: brown noise stays within [-1, 1] -/

theorem brown_step_bounded (d l : ℝ) (hd : |d| ≤ 1) (hl : |l| ≤ 1) :
    |0.02 * d + 0.98 * l| ≤ 1 := by
  have h1 : |0.02 * d + 0.98 * l| ≤ |0.02 * d| + |0.98 * l| := abs_add _ _
  rw [abs_mul, abs_mul] at h1
  have h2 : |(0.02 : ℝ)| = 0.02 := abs_of_pos (by norm_num)
  have h3 : |(0.98 : ℝ)| = 0.98 := abs_of_pos (by norm_num)
  rw [h2, h3] at h1
  nlinarith

theorem noiseAux_brown_bounded (draws : ℕ → ℝ) (h : ∀ i, |draws i| ≤ 1) :
    ∀ (len i : ℕ) (last : ℝ), |last| ≤ 1 →
      ∀ x ∈ noiseAux "brown" draws len i last, |x| ≤ 1 := by
  intro len
  induction len with
  | zero =>
    intro i last _ x hx
    simp [noiseAux] at hx
  | succ n ih =>
    intro i last hlast x hx
    rw [noiseAux] at hx
    simp only [reduceIte] at hx
    have hstep : |0.02 * draws i + 0.98 * last| ≤ 1 :=
      brown_step_bounded (draws i) last (h i) hlast
    rcases List.mem_cons.mp hx with rfl | hmem
    · exact hstep
    · exact ih (i + 1) _ hstep x hmem

/-- C7: every sample output by the brown-noise generator lies within [-1, 1]
whenever every underlying uniform draw lies in [-1, 1]: the one-pole filter
`last = 0.02·n + 0.98·last`, started from `0`, preserves the bound at every
step (its weights sum to 1, so it never amplifies). -/
theorem brown_noise_bounded (length : ℕ) (draws : ℕ → ℝ)
    (h : ∀ i, |draws i| ≤ 1) :
    ∀ x ∈ noiseList length "brown" draws, -1 ≤ x ∧ x ≤ 1 := by
  intro x hx
  exact abs_le.mp
    (noiseAux_brown_bounded draws h length 0 0 (by norm_num) x hx)

/-- C7 witness: the constant-zero draw stream satisfies the bound hypothesis
and yields bounded brown noise. -/
theorem brown_noise_bounded_witness :
    (∀ i : ℕ, |(fun _ : ℕ => (0 : ℝ)) i| ≤ 1) ∧
      ∀ x ∈ noiseList 2 "brown" (fun _ => 0), -1 ≤ x ∧ x ≤ 1 :=
  ⟨fun _ => by norm_num,
   brown_noise_bounded 2 (fun _ => 0) (fun _ => by norm_num)⟩

/-! ### C5: shape of the percussive envelope -/

theorem getD_range_map {α : Type} (f : ℕ → α) (n i : ℕ) (hi : i < n) (d : α) :
    ((List.range n).map f).getD i d = f i := by
  rw [List.getD_eq_getElem?_getD, List.getElem?_map, List.getElem?_range hi]
  rfl

theorem attackSamples_pos (attack : ℚ) : 1 ≤ attackSamples attack := by
  have h := le_max_left 1 (pyInt (attack * (SAMPLE_RATE : ℚ)))
  unfold attackSamples
  omega

/-- C5: for every length ≥ 1 and positive decay, the percussive envelope is
non-decreasing over its attack window of `max(1, int(attack·rate))` samples
(a linear ramp starting at 0), equals exactly 1 at the attack boundary
(index `attack_n`, the first sample at or after the window, whenever that
index is in range), and is strictly decreasing — following
`exp(-(i - attack_n)/(rate·decay))` — at every sample after the boundary. -/
theorem envPercussive_spec (length : ℕ) (attack decay : ℚ)
    (hlen : 1 ≤ length) (hdec : 0 < decay) :
    ((envPercussive length attack decay).getD 0 0 = 0) ∧
    (∀ i j, i ≤ j → j < attackSamples attack → j < length →
      (envPercussive length attack decay).getD i 0 ≤
        (envPercussive length attack decay).getD j 0) ∧
    (attackSamples attack < length →
      (envPercussive length attack decay).getD (attackSamples attack) 0 = 1) ∧
    (∀ i j, attackSamples attack ≤ i → i < j → j < length →
      ((envPercussive length attack decay).getD j 0 =
          Real.exp (-(((j : ℝ) - (attackSamples attack : ℝ)) /
            ((SAMPLE_RATE : ℝ) * (decay : ℝ)))) ∧
        (envPercussive length attack decay).getD j 0 <
          (envPercussive length attack decay).getD i 0)) := by
  have haN := attackSamples_pos attack
  set aN := attackSamples attack with haNdef
  have haNR : (0 : ℝ) < (aN : ℝ) := by exact_mod_cast haN
  have hc : (0 : ℝ) < (SAMPLE_RATE : ℝ) * ((decay : ℚ) : ℝ) := by
    have : (0 : ℝ) < ((decay : ℚ) : ℝ) := by exact_mod_cast hdec
    have hs : (0 : ℝ) < (SAMPLE_RATE : ℝ) := by norm_num [SAMPLE_RATE]
    positivity
  refine ⟨?_, ?_, ?_, ?_⟩
  · rw [envPercussive, getD_range_map _ _ _ (by omega)]
    rw [envPercussiveAt, if_pos (by omega)]
    simp
  · intro i j hij hjaN hjlen
    rw [envPercussive, getD_range_map _ _ _ (by omega),
      getD_range_map _ _ _ hjlen]
    rw [envPercussiveAt, envPercussiveAt, if_pos (by omega), if_pos hjaN]
    have : (i : ℝ) ≤ (j : ℝ) := by exact_mod_cast hij
    exact div_le_div_of_nonneg_right this haNR.le
  · intro hrange
    rw [envPercussive, getD_range_map _ _ _ hrange]
    rw [envPercussiveAt, if_neg (by omega)]
    simp
  · intro i j hiaN hij hjlen
    rw [envPercussive, getD_range_map _ _ _ hjlen,
      getD_range_map _ _ _ (show i < length by omega)]
    rw [envPercussiveAt, envPercussiveAt, if_neg (by omega), if_neg (by omega)]
    refine ⟨rfl, ?_⟩
    rw [Real.exp_lt_exp]
    have hijR : (i : ℝ) < (j : ℝ) := by exact_mod_cast hij
    rw [neg_lt_neg_iff, div_lt_div_iff_of_pos_right hc]
    linarith

/-- C5 witness: length 300, attack 0.005 s (so `attack_n = 220`), decay 1. -/
theorem envPercussive_spec_witness :
    (1 ≤ 300) ∧ ((0 : ℚ) < 1) ∧
      (((envPercussive 300 (1 / 200) 1).getD 0 0 = 0) ∧
      (∀ i j, i ≤ j → j < attackSamples (1 / 200) → j < 300 →
        (envPercussive 300 (1 / 200) 1).getD i 0 ≤
          (envPercussive 300 (1 / 200) 1).getD j 0) ∧
      (attackSamples (1 / 200) < 300 →
        (envPercussive 300 (1 / 200) 1).getD (attackSamples (1 / 200)) 0 = 1) ∧
      (∀ i j, attackSamples (1 / 200) ≤ i → i < j → j < 300 →
        ((envPercussive 300 (1 / 200) 1).getD j 0 =
            Real.exp (-(((j : ℝ) - (attackSamples (1 / 200) : ℝ)) /
              ((SAMPLE_RATE : ℝ) * ((1 : ℚ) : ℝ)))) ∧
          (envPercussive 300 (1 / 200) 1).getD j 0 <
            (envPercussive 300 (1 / 200) 1).getD i 0))) :=
  ⟨by norm_num, by norm_num,
   envPercussive_spec 300 (1 / 200) 1 (by norm_num) (by norm_num)⟩

/-! ### `_chime` and its overlay loop (C8) -/

/-- `out[idx] += v`: functional form of the in-place accumulation. -/
noncomputable def addAt (out : List ℝ) (idx : ℕ) (v : ℝ) : List ℝ :=
  out.set idx (out.getD idx 0 + v)

/-- The inner note loop of `_chime`: walk the per-sample contributions `ws`
(`ws[i] = env[i] * tone[i] * base_gain`) from write position `offset`,
adding each at `idx = offset + i` when `idx < total` and discarding it
otherwise (the bounds check `if idx < total`). -/
noncomputable def overlayLoop : List ℝ → ℕ → ℕ → List ℝ → List ℝ
  | [], _, _, out => out
  | w :: ws, offset, total, out =>
      overlayLoop ws (offset + 1) total
        (if offset < total then addAt out offset w else out)

/-- `max(t for t, _ in notes)`: maximum start time of a non-empty note list
(`0` on `[]`, where Python would raise). -/
def maxStart : List (ℚ × ℝ) → ℚ
  | [] => 0
  | (t, _) :: rest => (rest.map Prod.fst).foldl max t

/-- The per-sample contributions of one `_chime` note
`p = (start_time, frequency)`: a 0.4 s sine tone with 1 % upward drift under
a 5 ms attack / 0.25 s decay percussive envelope, scaled by `base_gain`.
(`env` and `tone` have equal length `n_len`, so the `zip` drops nothing.) -/
noncomputable def chimeVals (baseGain : ℝ) (p : ℚ × ℝ) : List ℝ :=
  let nLen := (pyInt ((2 / 5 : ℚ) * (SAMPLE_RATE : ℚ))).toNat
  List.zipWith (fun e t => e * t * baseGain)
    (envPercussive nLen (1 / 200) (1 / 4))
    (sweep ((nLen : ℚ) / (SAMPLE_RATE : ℚ)) p.2 (p.2 * 1.01) "sine")

/-- One iteration of the outer `_chime` loop: overlay the note `p` at
`offset = int(start * SAMPLE_RATE)`.  Start times are taken nonnegative
(the theorems hypothesize this; a negative Python index would instead wrap
around to the buffer's end). -/
noncomputable def chimeStep (baseGain : ℝ) (total : ℕ) (out : List ℝ)
    (p : ℚ × ℝ) : List ℝ :=
  overlayLoop (chimeVals baseGain p) (pyInt (p.1 * (SAMPLE_RATE : ℚ))).toNat
    total out

/-- `_chime(notes, base_gain)`: destination of
`int((max_start + 0.6) * SAMPLE_RATE)` zero samples, each note overlaid
additively by the bounds-checked loop. -/
noncomputable def chime (notes : List (ℚ × ℝ)) (baseGain : ℝ) : List ℝ :=
  let total := (pyInt ((maxStart notes + 3 / 5) * (SAMPLE_RATE : ℚ))).toNat
  notes.foldl (chimeStep baseGain total) (List.replicate total 0)

/-! #### Overlay-loop lemmas -/

theorem addAt_length (out : List ℝ) (idx : ℕ) (v : ℝ) :
    (addAt out idx v).length = out.length := List.length_set _ _ _

theorem overlayLoop_length :
    ∀ (ws : List ℝ) (offset total : ℕ) (out : List ℝ),
      (overlayLoop ws offset total out).length = out.length := by
  intro ws
  induction ws with
  | nil => intro offset total out; rfl
  | cons w ws ih =>
    intro offset total out
    rw [overlayLoop, ih]
    split_ifs with h
    · exact addAt_length out offset w
    · rfl

theorem addAt_getD (out : List ℝ) (idx : ℕ) (v : ℝ) (hidx : idx < out.length)
    (j : ℕ) :
    (addAt out idx v).getD j 0 = out.getD j 0 + if j = idx then v else 0 := by
  unfold addAt
  by_cases hj : j = idx
  · subst hj
    rw [if_pos rfl, List.getD_eq_getElem?_getD, List.getElem?_set_self hidx,
      List.getD_eq_getElem?_getD, List.getElem?_eq_getElem hidx]
    rfl
  · rw [if_neg hj, List.getD_eq_getElem?_getD,
      List.getElem?_set_ne (fun h => hj h.symm), add_zero,
      List.getD_eq_getElem?_getD]

theorem overlayLoop_getD :
    ∀ (ws : List ℝ) (offset total : ℕ) (out : List ℝ),
      out.length = total → ∀ j,
        (overlayLoop ws offset total out).getD j 0 =
          out.getD j 0 +
            (if offset ≤ j ∧ j < offset + ws.length ∧ j < total
             then ws.getD (j - offset) 0 else 0) := by
  intro ws
  induction ws with
  | nil =>
    intro offset total out _ j
    simp only [overlayLoop, List.length_nil]
    rw [if_neg (show ¬(offset ≤ j ∧ j < offset + 0 ∧ j < total) by omega),
      add_zero]
  | cons w ws ih =>
    intro offset total out hlen j
    rw [overlayLoop]
    simp only [List.length_cons]
    by_cases hofs : offset < total
    · rw [if_pos hofs,
        ih (offset + 1) total (addAt out offset w)
          (by rw [addAt_length, hlen]) j,
        addAt_getD out offset w (by omega) j]
      by_cases hj : j = offset
      · subst hj
        rw [if_pos rfl,
          if_neg (show ¬(j + 1 ≤ j ∧ j < j + 1 + ws.length ∧ j < total) by omega),
          if_pos (show j ≤ j ∧ j < j + (ws.length + 1) ∧ j < total by omega),
          Nat.sub_self, List.getD_cons_zero, add_zero]
      · rw [if_neg hj, add_zero]
        by_cases hC : offset + 1 ≤ j ∧ j < offset + 1 + ws.length ∧ j < total
        · rw [if_pos hC,
            if_pos (show offset ≤ j ∧ j < offset + (ws.length + 1) ∧ j < total by omega),
            show j - offset = (j - (offset + 1)) + 1 by omega,
            List.getD_cons_succ]
        · rw [if_neg hC,
            if_neg (show ¬(offset ≤ j ∧ j < offset + (ws.length + 1) ∧ j < total) by omega)]
    · rw [if_neg hofs, ih (offset + 1) total out hlen j,
        if_neg (show ¬(offset + 1 ≤ j ∧ j < offset + 1 + ws.length ∧ j < total) by omega),
        if_neg (show ¬(offset ≤ j ∧ j < offset + (ws.length + 1) ∧ j < total) by omega)]

/-! #### Lengths and concrete constants for `_chime` -/

theorem envPercussive_length (n : ℕ) (a d : ℚ) :
    (envPercussive n a d).length = n := by
  simp [envPercussive]

theorem sweep_length (dur : ℚ) (f0 f1 : ℝ) (s : String) :
    (sweep dur f0 f1 s).length = (pyInt (dur * (SAMPLE_RATE : ℚ))).toNat := by
  simp [sweep]

theorem nLen_eq : (pyInt ((2 / 5 : ℚ) * (SAMPLE_RATE : ℚ))).toNat = 17640 := by
  norm_num [pyInt, SAMPLE_RATE]
  decide

theorem tone_total_eq :
    (pyInt ((((17640 : ℕ) : ℚ)) / (SAMPLE_RATE : ℚ) * (SAMPLE_RATE : ℚ))).toNat
      = 17640 := by
  norm_num [pyInt, SAMPLE_RATE]
  decide

theorem getD_zipWith (f : ℝ → ℝ → ℝ) (a b : List ℝ) (j : ℕ)
    (hja : j < a.length) (hjb : j < b.length) :
    (List.zipWith f a b).getD j 0 = f (a.getD j 0) (b.getD j 0) := by
  rw [List.getD_eq_getElem?_getD, List.getElem?_zipWith,
    List.getElem?_eq_getElem hja, List.getElem?_eq_getElem hjb,
    List.getD_eq_getElem?_getD, List.getElem?_eq_getElem hja,
    List.getD_eq_getElem?_getD, List.getElem?_eq_getElem hjb]
  rfl

theorem getD_replicate_zero (n j : ℕ) :
    (List.replicate n (0 : ℝ)).getD j 0 = 0 := by
  rw [List.getD_eq_getElem?_getD, List.getElem?_replicate]
  split_ifs <;> rfl

theorem chimeVals_length (g : ℝ) (p : ℚ × ℝ) :
    (chimeVals g p).length = 17640 := by
  simp only [chimeVals]
  rw [nLen_eq, List.length_zipWith, envPercussive_length, sweep_length,
    tone_total_eq]
  omega

theorem attackSamples_chime : attackSamples (1 / 200) = 220 := by
  norm_num [attackSamples, pyInt, SAMPLE_RATE]
  decide

/-! #### The non-zero sample of a 440 Hz `_chime` note -/

theorem chime_tone_phase :
    sweepPhase 17640 440 (440 * 1.01) 1
      = (38808011 / 972405000 : ℝ) * Real.pi := by
  rw [sweepPhase, Finset.sum_range_succ, Finset.sum_range_one, sweepFreq,
    sweepFreq, PI2]
  norm_num [SAMPLE_RATE]
  ring

theorem chime_tone_sample_pos :
    0 < Real.sin (sweepPhase 17640 440 (440 * 1.01) 1) := by
  rw [chime_tone_phase]
  apply Real.sin_pos_of_pos_of_lt_pi
  · positivity
  · nlinarith [Real.pi_pos]

theorem chimeVals_getD_one (g : ℝ) (start : ℚ) :
    (chimeVals g (start, 440)).getD 1 0 =
      (1 / 220 : ℝ) * Real.sin (sweepPhase 17640 440 (440 * 1.01) 1) * g := by
  have henv : (envPercussive 17640 (1 / 200) (1 / 4)).getD 1 0 = (1 / 220 : ℝ) := by
    rw [envPercussive, getD_range_map _ _ _ (by omega), envPercussiveAt,
      attackSamples_chime, if_pos (by omega)]
    norm_num
  have htone :
      (sweep (((17640 : ℕ) : ℚ) / (SAMPLE_RATE : ℚ)) 440 (440 * 1.01)
          "sine").getD 1 0
        = Real.sin (sweepPhase 17640 440 (440 * 1.01) 1) := by
    rw [sweep]
    simp only [tone_total_eq]
    rw [getD_range_map _ _ _ (by omega), waveFn,
      if_neg (by decide), if_neg (by decide), if_neg (by decide)]
  simp only [chimeVals]
  rw [nLen_eq]
  rw [getD_zipWith _ _ _ 1
    (by rw [envPercussive_length]; omega)
    (by rw [sweep_length, tone_total_eq]; omega)]
  rw [henv, htone]

theorem chimeVals_getD_one_ne (g : ℝ) (start : ℚ) (hg : g ≠ 0) :
    (chimeVals g (start, 440)).getD 1 0 ≠ 0 := by
  rw [chimeVals_getD_one]
  exact mul_ne_zero
    (mul_ne_zero (by norm_num) (ne_of_gt chime_tone_sample_pos)) hg

/-! #### C8: length and energy of `_chime` -/

theorem chime_foldl_length (g : ℝ) (tot : ℕ) :
    ∀ (notes : List (ℚ × ℝ)) (out : List ℝ),
      (notes.foldl (chimeStep g tot) out).length = out.length := by
  intro notes
  induction notes with
  | nil => intro out; rfl
  | cons p ps ih =>
    intro out
    rw [List.foldl_cons, ih, chimeStep, overlayLoop_length]

theorem chime_length (notes : List (ℚ × ℝ)) (g : ℝ) :
    (chime notes g).length =
      (pyInt ((maxStart notes + 3 / 5) * (SAMPLE_RATE : ℚ))).toNat := by
  simp only [chime]
  rw [chime_foldl_length, List.length_replicate]

theorem chime_example_total :
    (pyInt ((maxStart [((0 : ℚ), (440 : ℝ)), ((1 / 2 : ℚ), 440)] + 3 / 5)
        * (SAMPLE_RATE : ℚ))).toNat = 48510 := by
  norm_num [maxStart, pyInt, SAMPLE_RATE, max_def]
  decide

theorem chime_offset_zero : (pyInt ((0 : ℚ) * (SAMPLE_RATE : ℚ))).toNat = 0 := by
  norm_num [pyInt]

theorem chime_offset_half :
    (pyInt ((1 / 2 : ℚ) * (SAMPLE_RATE : ℚ))).toNat = 22050 := by
  norm_num [pyInt, SAMPLE_RATE]
  decide

theorem chime_example_unfold (gain : ℝ) :
    chime [((0 : ℚ), (440 : ℝ)), ((1 / 2 : ℚ), 440)] gain =
      chimeStep gain 48510
        (chimeStep gain 48510 (List.replicate 48510 0) ((0 : ℚ), (440 : ℝ)))
        ((1 / 2 : ℚ), (440 : ℝ)) := by
  rw [chime]
  rw [chime_example_total]
  rw [List.foldl_cons, List.foldl_cons, List.foldl_nil]

theorem chime_example_inner_length (gain : ℝ) :
    (chimeStep gain 48510 (List.replicate 48510 0)
      ((0 : ℚ), (440 : ℝ))).length = 48510 := by
  rw [chimeStep, overlayLoop_length, List.length_replicate]

theorem chime_example_inner_getD (gain : ℝ) (j : ℕ) :
    (chimeStep gain 48510 (List.replicate 48510 0)
        ((0 : ℚ), (440 : ℝ))).getD j 0 =
      if j < 17640 then (chimeVals gain ((0 : ℚ), (440 : ℝ))).getD j 0 else 0 := by
  rw [chimeStep, chime_offset_zero,
    overlayLoop_getD _ 0 48510 _ (List.length_replicate _ _) j,
    getD_replicate_zero, zero_add, chimeVals_length]
  by_cases hj : j < 17640
  · rw [if_pos (by omega), if_pos hj, Nat.sub_zero]
  · rw [if_neg (by omega), if_neg hj]

theorem chime_example_getD (gain : ℝ) (j : ℕ) :
    (chime [((0 : ℚ), (440 : ℝ)), ((1 / 2 : ℚ), 440)] gain).getD j 0 =
      (if j < 17640 then (chimeVals gain ((0 : ℚ), (440 : ℝ))).getD j 0 else 0)
        + (if 22050 ≤ j ∧ j < 22050 + 17640 ∧ j < 48510
           then (chimeVals gain ((1 / 2 : ℚ), (440 : ℝ))).getD (j - 22050) 0
           else 0) := by
  rw [chime_example_unfold, chimeStep, chime_offset_half,
    overlayLoop_getD _ 22050 48510 _ (chime_example_inner_length gain) j,
    chime_example_inner_getD, chimeVals_length]

/-- C8 (amended): for every non-empty note list with nonnegative start times
and every base gain, `_chime` builds a destination buffer of exactly
`int((max_start + 0.6) * rate)` samples — samples falling at or beyond that
length are discarded, never growing the destination — and for every
**non-zero** base gain, `chime [(0.0, 440), (0.5, 440)] gain` has length
`48510 ≥ (0.5+0.6)·44100` and non-zero samples one index after each of the
0.0 s and 0.5 s note offsets. -/
theorem chime_spec (notes : List (ℚ × ℝ)) (gain : ℝ)
    (_hne : notes ≠ []) (_hnn : ∀ p ∈ notes, 0 ≤ p.1) (hg : gain ≠ 0) :
    (chime notes gain).length =
      (pyInt ((maxStart notes + 3 / 5) * (SAMPLE_RATE : ℚ))).toNat ∧
    (chime [((0 : ℚ), (440 : ℝ)), ((1 / 2 : ℚ), 440)] gain).length = 48510 ∧
    (chime [((0 : ℚ), (440 : ℝ)), ((1 / 2 : ℚ), 440)] gain).getD 1 0 ≠ 0 ∧
    (chime [((0 : ℚ), (440 : ℝ)), ((1 / 2 : ℚ), 440)] gain).getD 22051 0 ≠ 0 := by
  refine ⟨chime_length notes gain, ?_, ?_, ?_⟩
  · rw [chime_length, chime_example_total]
  · rw [chime_example_getD, if_pos (by omega), if_neg (by omega), add_zero]
    exact chimeVals_getD_one_ne gain 0 hg
  · rw [chime_example_getD, if_neg (by omega), if_pos (by omega), zero_add,
      show 22051 - 22050 = 1 by omega]
    exact chimeVals_getD_one_ne gain (1 / 2) hg

/-- C8 witness: the single-note list `[(0, 440)]` with gain 1. -/
theorem chime_spec_witness :
    ([((0 : ℚ), (440 : ℝ))] ≠ []) ∧ (∀ p ∈ [((0 : ℚ), (440 : ℝ))], 0 ≤ p.1) ∧
      ((1 : ℝ) ≠ 0) ∧
      ((chime [((0 : ℚ), (440 : ℝ))] 1).length =
        (pyInt ((maxStart [((0 : ℚ), (440 : ℝ))] + 3 / 5)
          * (SAMPLE_RATE : ℚ))).toNat ∧
      (chime [((0 : ℚ), (440 : ℝ)), ((1 / 2 : ℚ), 440)] 1).length = 48510 ∧
      (chime [((0 : ℚ), (440 : ℝ)), ((1 / 2 : ℚ), 440)] 1).getD 1 0 ≠ 0 ∧
      (chime [((0 : ℚ), (440 : ℝ)), ((1 / 2 : ℚ), 440)] 1).getD 22051 0 ≠ 0) :=
  ⟨by simp, by rintro p hp; rcases List.mem_singleton.mp hp with rfl; norm_num,
   by norm_num,
   chime_spec [((0 : ℚ), (440 : ℝ))] 1 (by simp)
     (by rintro p hp; rcases List.mem_singleton.mp hp with rfl; norm_num)
     (by norm_num)⟩

/-! #### C8 counterexample: gain 0 gives a silent buffer -/

theorem zipWith_zero_gain (a : List ℝ) :
    ∀ b : List ℝ, List.zipWith (fun e t => e * t * (0 : ℝ)) a b =
      List.replicate (min a.length b.length) 0 := by
  induction a with
  | nil => intro b; simp
  | cons x xs ih =>
    intro b
    cases b with
    | nil => simp
    | cons y ys =>
      rw [List.zipWith_cons_cons, ih ys]
      simp only [List.length_cons, Nat.succ_min_succ, List.replicate_succ]
      rw [mul_zero]

theorem overlayLoop_replicate_zero :
    ∀ (ws : List ℝ), (∀ w ∈ ws, w = 0) → ∀ (offset total : ℕ),
      overlayLoop ws offset total (List.replicate total 0) =
        List.replicate total 0 := by
  intro ws
  induction ws with
  | nil => intro _ offset total; rfl
  | cons w ws ih =>
    intro hz offset total
    have hw : w = 0 := hz w (List.mem_cons_self w ws)
    have hstep :
        (if offset < total then
          addAt (List.replicate total (0 : ℝ)) offset w
        else List.replicate total 0) = List.replicate total 0 := by
      split_ifs with h
      · rw [addAt, getD_replicate_zero, hw, add_zero, List.set_replicate_self]
      · rfl
    rw [overlayLoop, hstep, ih (fun x hx => hz x (List.mem_cons_of_mem w hx))]

/-- C8 counterexample: with base gain `0` the chime
`chime [(0.0, 440), (0.5, 440)] 0` is identically zero — it has no non-zero
energy at the 0.0 s or 0.5 s offsets, so the claim fails at gain `0`. -/
theorem chime_zero_gain_counterexample :
    chime [((0 : ℚ), (440 : ℝ)), ((1 / 2 : ℚ), 440)] 0 =
      List.replicate 48510 0 := by
  have hz : ∀ (p : ℚ × ℝ), ∀ w ∈ chimeVals 0 p, w = 0 := by
    intro p w hw
    rw [chimeVals] at hw
    rw [zipWith_zero_gain] at hw
    exact List.eq_of_mem_replicate hw
  rw [chime_example_unfold, chimeStep, chimeStep, chime_offset_zero,
    overlayLoop_replicate_zero _ (hz _), chime_offset_half,
    overlayLoop_replicate_zero _ (hz _)]

/-! ### C9: determinism of `space_break("small")` -/

/-- The `{"small": 320, "medium": 230, "large": 150}[size]` lookup of
`space_break`; an unknown size raises `KeyError`, modelled as `none`. -/
noncomputable def spaceBreakBase (size : String) : Option ℝ :=
  if size = "small" then some 320
  else if size = "medium" then some 230
  else if size = "large" then some 150
  else none

/-- `_short_explosion(base_freq, depth, noise_color)`: a 0.45 s percussive
envelope (5 ms attack, 0.32 s decay) applied to a triangle "thump" sweep
from `1.3·base` down to `0.7·base`, mixed with colored "grit" noise at gain
0.25. -/
noncomputable def shortExplosion (baseFreq depth : ℝ) (noiseColor : String)
    (draws : ℕ → ℝ) : List ℝ :=
  let length := (pyInt ((9 / 20 : ℚ) * (SAMPLE_RATE : ℚ))).toNat
  let env := envPercussive length (1 / 200) (8 / 25)
  let thump := sweep (9 / 20) (baseFreq * 1.3) (baseFreq * 0.7) "triangle"
  let grit := noiseList length noiseColor draws
  mix2 (applyEnv env thump depth) (applyEnv env grit 0.25)

/-- `space_break(size)`: a short explosion at the size-selected base
frequency, depth `0.6 + 0.1·(size == "large")`, pink noise. -/
noncomputable def spaceBreak (size : String) (draws : ℕ → ℝ) :
    Option (List ℝ) :=
  (spaceBreakBase size).map (fun base =>
    shortExplosion base (0.6 + if size = "large" then 0.1 else 0) "pink" draws)

/-- C9: the "space-break-small" cue is a deterministic function of the
shared seeded randomness stream: two runs whose draw streams agree at every
index (same seed, same draw order) produce identical pre-encoder sample
sequences. -/
theorem space_break_small_deterministic (d1 d2 : ℕ → ℝ)
    (h : ∀ i, d1 i = d2 i) :
    spaceBreak "small" d1 = spaceBreak "small" d2 := by
  have hd : d1 = d2 := funext h
  rw [hd]

/-- C9 witness: two identical all-zero draw streams. -/
theorem space_break_small_deterministic_witness :
    spaceBreak "small" (fun _ => 0) = spaceBreak "small" (fun _ => 0) :=
  space_break_small_deterministic (fun _ => 0) (fun _ => 0) (fun _ => rfl)

end ThemeAudio
